import Mathlib

/-!
Shallow embedding of the `config` and `spawn` packages of the gopherd/exp
repository (files `config/config.go`, `config/client.go`, `spawn/spawn.go`),
together with theorems checking the repository's specification claims.

Modelling conventions:
- Go strings are Lean `String`; Go's built-in lexicographic string order is
  modelled by `charListLtb` below (a recursive lexicographic comparison of
  the character sequences, matching Go's byte-wise `<` on the strings that
  occur here).
- Go byte slices are `List Nat`.
- Fallible Go functions returning `(T, error)` become `Except String T` or a
  pair with an `Option String` error component.
- External effects (HTTP requests, file reads, the caller-supplied `Hub.Parse`)
  are passed in as explicit function arguments, so every definition is a pure,
  executable function of its inputs.
- Go slices are a view into a backing array; `Scopes.Compact` mutates its
  receiver's backing array in place (element removal by shifting, in-place
  sort, in-place adjacent dedup).  `compactGo` therefore returns both the
  value of the returned slice and the final contents of the caller's backing
  array, so that frame effects on the caller's list are provable facts.
-/

/-- Go's `<` on strings, on the underlying character lists: lexicographic
comparison, first difference decides. -/
def charListLtb : List Char → List Char → Bool
  | [], [] => false
  | [], _ :: _ => true
  | _ :: _, [] => false
  | a :: as, b :: bs => if a < b then true else if b < a then false else charListLtb as bs

/-- Go's `a < b` on strings. -/
def goLt (a b : String) : Bool := charListLtb a.data b.data

/-- Go's `a <= b` on strings (total order: `a <= b` iff not `b < a`). -/
def goLe (a b : String) : Bool := !goLt b a

/-- The order used by `slices.Sort` on `[]string`, as a proposition. -/
def StrLE (a b : String) : Prop := goLe a b = true

instance : DecidableRel StrLE := fun a b => inferInstanceAs (Decidable (_ = true))

/-- Go `[]byte`. -/
abbrev Bytes := List Nat

/-- `type Scopes []string` (config/config.go). -/
abbrev Scopes := List String

/-- In-place removal `s = append(s[:i], s[i+1:]...)` performed on a backing
array `a` whose live slice is the first `n` elements: elements `i+1 .. n-1`
shift down one position, position `n-1` keeps its old value, positions `>= n`
are untouched. -/
def removeAt (a : Scopes) (n i : Nat) : Scopes :=
  a.take i ++ (a.drop (i + 1)).take (n - 1 - i) ++ a.drop (n - 1)

/-- The loop of `Scopes.Compact` (config/config.go:94-101): scan right to
left from index `i - 1`; return the one-element slice `s[i:i+1]` on `"*"`
(left summand: returned slice contents and backing array), remove empty
strings in place; otherwise fall through (right summand: backing array and
live length for the sort-and-compact phase). -/
def compactLoop : Nat → Scopes → Nat → (Scopes × Scopes) ⊕ (Scopes × Nat)
  | 0, a, n => Sum.inr (a, n)
  | i + 1, a, n =>
    let x := a.getD i ""
    if x = "*" then Sum.inl ([x], a)
    else if x = "" then compactLoop i (removeAt a n i) (n - 1)
    else compactLoop i a n

/-- `slices.Sort` on `[]string`: produces the ascending reordering of the
slice (the sorted permutation of a list over a total order is unique, so any
correct sorting algorithm denotes this function). -/
def sortStrings (l : Scopes) : Scopes := List.insertionSort StrLE l

/-- Tail of `slices.Compact`: `x` is the last element kept; skip elements
equal to it, keep the first differing element and continue from there. -/
def compactAdjAux (x : String) : Scopes → Scopes
  | [] => []
  | y :: rest => if x = y then compactAdjAux x rest else y :: compactAdjAux y rest

/-- `slices.Compact`: collapse each run of equal adjacent elements to its
first element. -/
def compactAdj : Scopes → Scopes
  | [] => []
  | x :: rest => x :: compactAdjAux x rest

/-- `Scopes.Compact` (config/config.go:93-104) at the Go-slice level.
Returns `(returned slice contents, final backing array)`.  In the
fall-through case the first `n` live elements are sorted in place and then
adjacent-deduplicated in place; `slices.Compact` zeroes the slots between the
new and the old length, and slots past the live length keep whatever the
removal loop left there. -/
def compactGo (s : Scopes) : Scopes × Scopes :=
  match compactLoop s.length s s.length with
  | Sum.inl (res, a) => (res, a)
  | Sum.inr (a, n) =>
    let res := compactAdj (sortStrings (a.take n))
    (res, res ++ List.replicate (n - res.length) "" ++ a.drop n)

/-- The value returned by `Scopes.Compact`. -/
def Scopes.Compact (s : Scopes) : Scopes := (compactGo s).1

/-- The caller's view of its own scope list after `Scopes.Compact` returns:
the final contents of the backing array (the caller's slice header still
covers the original length). -/
def compactBacking (s : Scopes) : Scopes := (compactGo s).2

/-- `Scopes.Any` (config/config.go:121-123). -/
def Scopes.Any (s : Scopes) : Bool := s.length == 1 && s.getD 0 "" == "*"

/-- The loop of `slices.BinarySearch`: lower-bound search for `target` in
`a[i:j]`. -/
def binarySearchLoop (a : Scopes) (target : String) (i j : Nat) : Nat :=
  if i < j then
    let m := (i + j) / 2
    if goLt (a.getD m "") target then binarySearchLoop a target (m + 1) j
    else binarySearchLoop a target i m
  else i
termination_by j - i
decreasing_by all_goals omega

/-- `slices.BinarySearch(x, target)`: position of the first element not
below `target`, plus whether `target` is present there. -/
def binarySearch (a : Scopes) (target : String) : Nat × Bool :=
  let i := binarySearchLoop a target 0 a.length
  (i, decide (i < a.length) && (a.getD i "" == target))

/-- `Scopes.Has` (config/config.go:112-118). -/
def Scopes.Has (s : Scopes) (scope : String) : Bool :=
  if Scopes.Any s then true else (binarySearch s scope).2

/-- Identifies which encoder/decoder pair `ContentType.Parse` selected. -/
inductive Codec
  | json
  | yaml
  | toml
deriving DecidableEq

/-- `c = c[:i]` for `i` the first index of `';'` (no change when `';'` is
absent): everything from the first semicolon on is discarded. -/
def trimAfterSemicolon (c : String) : String :=
  String.mk (c.data.takeWhile (fun ch => ch ≠ ';'))

/-- `ContentType.Parse` (config/config.go:69-86): empty means JSON; strip a
parameter suffix after `';'`; then exactly three media types resolve. -/
def ContentType.Parse (c : String) : Except String (String × Codec) :=
  if c = "" then .ok ("json", .json)
  else
    let c2 := trimAfterSemicolon c
    if c2 = "application/json" then .ok ("json", .json)
    else if c2 = "application/yaml" then .ok ("yaml", .yaml)
    else if c2 = "application/toml" then .ok ("toml", .toml)
    else .error "unsupported content type"

/-- The mutable state of `Config[H]` (config/config.go:160-164): the atomic
hub pointer (`none` while unloaded) and the last-seen checksum. -/
structure ConfigState (H : Type) where
  hub : Option H
  checksum : String
deriving DecidableEq

/-- `Config.Latest` (config/config.go:172-174): dereferences the stored hub
pointer; `none` models the nil-pointer panic before the first successful
load. -/
def Config.Latest {H : Type} (st : ConfigState H) : Option H := st.hub

/-- `Config.parse` (config/config.go:176-183).  `newParse` is the composite
of the hub constructor `c.new()` and the caller-defined `Hub.Parse` with the
selected decoder.  Returns the state after the call and the returned error. -/
def Config.parse {H : Type} (newParse : Bytes → Except String H)
    (st : ConfigState H) (data : Bytes) : ConfigState H × Option String :=
  match newParse data with
  | .error e => (st, some e)
  | .ok hub => ({ st with hub := some hub }, none)

/-- `const HeaderChecksum = "X-Checksum"` (config/config.go:21). -/
def HeaderChecksum : String := "X-Checksum"

/-- An HTTP response as observed by `fetch`: headers and a fully read body. -/
structure HttpResponse where
  headers : List (String × String)
  body : Bytes

/-- `res.Header.Get(key)`: first value for the key, empty string if the
header is absent. -/
def headerGet (headers : List (String × String)) (key : String) : String :=
  match headers.find? (fun kv => kv.1 == key) with
  | some kv => kv.2
  | none => ""

/-- The success path of `fetch` (config/config.go:274-293): the new checksum
is read from the response's `X-Checksum` header (empty when the header is
missing) and the body is read in full. -/
def fetch (res : HttpResponse) : String × Bytes :=
  (headerGet res.headers HeaderChecksum, res.body)

/-- `Config.loadHTTP` (config/config.go:254-272).  `fetchResult` is the
outcome of the `fetch` call (new checksum and body, or a transport error).
Returns (state after the call, changed flag, error, number of times the
decode path `c.parse` was invoked). -/
def Config.loadHTTP {H : Type} (contentType : String)
    (newParse : Bytes → Except String H)
    (fetchResult : Except String (String × Bytes)) (st : ConfigState H) :
    ConfigState H × Bool × Option String × Nat :=
  match ContentType.Parse contentType with
  | .error e => (st, false, some e, 0)
  | .ok _ =>
    match fetchResult with
    | .error e => (st, false, some e, 0)
    | .ok (newChecksum, data) =>
      if newChecksum = st.checksum then (st, false, none, 0)
      else
        match Config.parse newParse st data with
        | (st2, none) => ({ st2 with checksum := newChecksum }, true, none, 1)
        | (st2, some e) => (st2, false, some e, 1)

/-- The filename for a scope (config/config.go:234-239): `Namer(scope, ext)`
when a namer is configured, else `scope + "." + ext`. -/
def scopeFileName (namer : Option (String → String → String))
    (ext scope : String) : String :=
  match namer with
  | some f => f scope ext
  | none => scope ++ "." ++ ext

/-- Go map assignment `data[scope] = content` on an association list:
overwrite the existing entry, or append a new one. -/
def insertEnv (env : List (String × Bytes)) (k : String) (v : Bytes) :
    List (String × Bytes) :=
  if env.any (fun kv => kv.1 == k) then
    env.map (fun kv => if kv.1 == k then (k, v) else kv)
  else env ++ [(k, v)]

/-- Go map lookup `data[scope]` on the association list. -/
def lookupEnv (env : List (String × Bytes)) (k : String) : Option Bytes :=
  (env.find? (fun kv => kv.1 == k)).map (fun kv => kv.2)

/-- The collection loop of `Config.loadDir` (config/config.go:233-245): read
one file per scope, stopping with the first error; `readFile` is
`os.ReadFile` with the target directory fixed. -/
def loadDirLoop (readFile : String → Except String Bytes)
    (namer : Option (String → String → String)) (ext : String) :
    List String → List (String × Bytes) → Except String (List (String × Bytes))
  | [], env => .ok env
  | scope :: rest, env =>
    match readFile (scopeFileName namer ext scope) with
    | .error e => .error e
    | .ok content => loadDirLoop readFile namer ext rest (insertEnv env scope content)

/-- `Config.loadDir` (config/config.go:221-251).  The `json.Marshal` of the
envelope followed by `c.parse`'s decode of it is modelled as one function
`envParse` on the envelope itself, so the third component records exactly
what was handed to the decode step (`none` when decode was never invoked). -/
def Config.loadDir {H : Type} (contentType : String)
    (envParse : List (String × Bytes) → Except String H)
    (readFile : String → Except String Bytes)
    (namer : Option (String → String → String))
    (scopes : Scopes) (st : ConfigState H) :
    ConfigState H × Option String × Option (List (String × Bytes)) :=
  match ContentType.Parse contentType with
  | .error e => (st, some e, none)
  | .ok (ext, _) =>
    match loadDirLoop readFile namer ext scopes [] with
    | .error e => (st, some e, none)
    | .ok env =>
      match envParse env with
      | .error e => (st, some e, some env)
      | .ok hub => ({ st with hub := some hub }, none, some env)

/-- The external collaborators of `Config.Load`: the caller-supplied decode
chain, the optional fetch override, the HTTP transport (a function of the
checksum sent in the request) and the filesystem. -/
structure LoadEnv (H : Type) where
  newParse : Bytes → Except String H
  envParse : List (String × Bytes) → Except String H
  fetchFn : String → Scopes → Except String Bytes
  httpFetch : String → Except String (String × Bytes)
  readFile : String → Except String Bytes

/-- `Options` (config/config.go:126-151); `hasFetch` records whether
`options.Fetch` is non-nil (the function itself lives in `LoadEnv`). -/
structure LoadOptions where
  source : String
  contentType : String
  scopes : Scopes
  hasFetch : Bool
  namer : Option (String → String → String)

/-- `Config.Load` (config/config.go:186-218): normalize scopes, return
`(false, nil)` on an empty normalized list, reject an unresolved `"*"`,
then dispatch to the fetch override, the HTTP loader, or the directory
loader. -/
def Config.Load {H : Type} (env : LoadEnv H) (options : LoadOptions)
    (st : ConfigState H) : ConfigState H × Bool × Option String :=
  if (Scopes.Compact options.scopes).length = 0 then (st, false, none)
  else if (Scopes.Compact options.scopes).contains "*" then
    (st, false, some "scope * should be resolved before loading")
  else if options.hasFetch then
    match ContentType.Parse options.contentType with
    | .error e => (st, false, some e)
    | .ok _ =>
      match env.fetchFn options.contentType (Scopes.Compact options.scopes) with
      | .error e => (st, false, some e)
      | .ok data =>
        match Config.parse env.newParse st data with
        | (st2, err) => (st2, true, err)
  else if options.source.startsWith "http://" || options.source.startsWith "https://" then
    match Config.loadHTTP options.contentType env.newParse (env.httpFetch st.checksum) st with
    | (st2, changed, err, _) => (st2, changed, err)
  else
    match Config.loadDir options.contentType env.envParse env.readFile options.namer
        (Scopes.Compact options.scopes) st with
    | (st2, err, _) => (st2, true, err)

/-- What the goroutine spawned by `spawn.Tick` does first: `time.NewTicker(d)`
panics for a non-positive duration (Go runtime: "non-positive interval for
NewTicker"), otherwise the periodic loop runs. -/
inductive TaskOutcome
  | panicked
  | running
deriving DecidableEq

/-- The fate of the goroutine spawned by `spawn.Tick(ctx, f, d)`
(spawn/spawn.go): it immediately calls `time.NewTicker(d)`, which panics when
`d <= 0`; otherwise the ticker loop runs until cancellation. -/
def spawn.TickGoroutine (d : Int) : TaskOutcome :=
  if d ≤ 0 then .panicked else .running

/-- `Client.Start` (config/client.go:87-90): unconditionally spawns
`spawn.Tick(ctx, c.reload, c.options.RefreshInterval.Value())` and returns
`nil`.  Result: (fate of the spawned periodic task, Start's returned
error). -/
def Client.Start (refreshInterval : Int) : TaskOutcome × Option String :=
  (spawn.TickGoroutine refreshInterval, none)

/-- Synchronization state of one `spawn.Run` task and one `Join` caller
(spawn/spawn.go:116-158): whether the task function has returned, whether the
task's derived context has been canceled, whether `close(h.done)` has
executed, whether the Join caller's own context has expired, and whether the
Join call has returned. -/
structure TaskState where
  funcReturned : Bool
  ctxCanceled : Bool
  doneClosed : Bool
  joinCtxDone : Bool
  joinReturned : Bool
deriving DecidableEq

/-- All-false initial state: task started, nothing has happened yet. -/
def initTask : TaskState := ⟨false, false, false, false, false⟩

/-- The atomic events of the task/handle protocol. -/
inductive TaskLabel
  | funcReturn
  | closeDone
  | cancelCall
  | joinCtxExpire
  | joinReturn
deriving DecidableEq

/-- One step of the protocol; `none` when the event is not enabled.
`funcReturn` is the task function returning together with the deferred
`cancel()` (registered last, so it runs first); `closeDone` is the deferred
`close(h.done)`, which can only run after the function has returned;
`cancelCall` is `Handle.Cancel`, always enabled (a context cancel function is
idempotent and non-blocking); `joinCtxExpire` is the Join caller's own
context expiring; `joinReturn` is `Handle.Join` returning, enabled exactly
when one of the two select arms (`ctx.Done()`, `h.done`) is ready. -/
def taskStep : TaskLabel → TaskState → Option TaskState
  | .funcReturn, s =>
    if s.funcReturned then none
    else some { s with funcReturned := true, ctxCanceled := true }
  | .closeDone, s =>
    if s.funcReturned && !s.doneClosed then some { s with doneClosed := true } else none
  | .cancelCall, s => some { s with ctxCanceled := true }
  | .joinCtxExpire, s => some { s with joinCtxDone := true }
  | .joinReturn, s =>
    if !s.joinReturned && (s.doneClosed || s.joinCtxDone) then
      some { s with joinReturned := true }
    else none

/-- Some enabled event takes `s` to `t`. -/
def taskStepRel (s t : TaskState) : Prop := ∃ l, taskStep l s = some t

/-- States reachable from the start of the task. -/
def TaskReachable (s : TaskState) : Prop :=
  Relation.ReflTransGen taskStepRel initTask s

/-! ### Facts about the Go string order -/

/-- Strict order on strings as a proposition. -/
def StrLT (a b : String) : Prop := goLt a b = true

instance : DecidableRel StrLT := fun a b => inferInstanceAs (Decidable (_ = true))

theorem charListLtb_irrefl (l : List Char) : charListLtb l l = false := by
  induction l with
  | nil => rfl
  | cons x xs ih => simp [charListLtb, ih]

theorem charListLtb_cons_iff (x y : Char) (xs ys : List Char) :
    charListLtb (x :: xs) (y :: ys) = true ↔
      x < y ∨ (x = y ∧ charListLtb xs ys = true) := by
  simp only [charListLtb]
  split_ifs with h1 h2
  · simp [h1]
  · constructor
    · intro hf; simp at hf
    · rintro (hlt | ⟨heq, _⟩)
      · exact absurd hlt h1
      · subst heq; exact absurd h2 (lt_irrefl x)
  · have hxy : x = y := le_antisymm (not_lt.mp h2) (not_lt.mp h1)
    simp [hxy, lt_irrefl]

theorem charListLtb_trans (a : List Char) :
    ∀ b c, charListLtb a b = true → charListLtb b c = true → charListLtb a c = true := by
  induction a with
  | nil =>
    intro b c hab hbc
    cases b with
    | nil => simp [charListLtb] at hab
    | cons y ys =>
      cases c with
      | nil => simp [charListLtb] at hbc
      | cons z zs => simp [charListLtb]
  | cons x xs ih =>
    intro b c hab hbc
    cases b with
    | nil => simp [charListLtb] at hab
    | cons y ys =>
      cases c with
      | nil => simp [charListLtb] at hbc
      | cons z zs =>
        rw [charListLtb_cons_iff] at hab hbc ⊢
        rcases hab with h1 | ⟨h1, h1'⟩
        · rcases hbc with h2 | ⟨h2, _⟩
          · exact Or.inl (lt_trans h1 h2)
          · exact Or.inl (h2 ▸ h1)
        · rcases hbc with h2 | ⟨h2, h2'⟩
          · exact Or.inl (h1 ▸ h2)
          · exact Or.inr ⟨h1.trans h2, ih ys zs h1' h2'⟩

theorem charListLtb_eq_of_not (a : List Char) :
    ∀ b, charListLtb a b = false → charListLtb b a = false → a = b := by
  induction a with
  | nil =>
    intro b hab _
    cases b with
    | nil => rfl
    | cons y ys => simp [charListLtb] at hab
  | cons x xs ih =>
    intro b hab hba
    cases b with
    | nil => simp [charListLtb] at hba
    | cons y ys =>
      have hab' : ¬(x < y ∨ (x = y ∧ charListLtb xs ys = true)) := by
        rw [← charListLtb_cons_iff]; simp [hab]
      have hba' : ¬(y < x ∨ (y = x ∧ charListLtb ys xs = true)) := by
        rw [← charListLtb_cons_iff]; simp [hba]
      push_neg at hab' hba'
      have hxy : x = y := le_antisymm hba'.1 hab'.1
      have h1 : charListLtb xs ys = false :=
        Bool.eq_false_iff.mpr (hab'.2 hxy)
      have h2 : charListLtb ys xs = false :=
        Bool.eq_false_iff.mpr (hba'.2 hxy.symm)
      rw [hxy, ih ys h1 h2]

theorem strLt_irrefl (a : String) : ¬StrLT a a := by
  intro h
  simp only [StrLT, goLt] at h
  rw [charListLtb_irrefl] at h
  exact Bool.false_ne_true h

theorem strLt_trans {a b c : String} (h1 : StrLT a b) (h2 : StrLT b c) : StrLT a c :=
  charListLtb_trans a.data b.data c.data h1 h2

theorem strEq_of_not_lt {a b : String} (h1 : ¬StrLT a b) (h2 : ¬StrLT b a) : a = b := by
  apply String.ext
  exact charListLtb_eq_of_not a.data b.data
    (Bool.eq_false_iff.mpr h1) (Bool.eq_false_iff.mpr h2)

theorem strLE_iff_not_lt {a b : String} : StrLE a b ↔ ¬StrLT b a := by
  unfold StrLE StrLT goLe
  cases h : goLt b a <;> simp [h]

theorem strLT_of_le_ne {a b : String} (h : StrLE a b) (hne : a ≠ b) : StrLT a b := by
  rw [strLE_iff_not_lt] at h
  by_cases hab : StrLT a b
  · exact hab
  · exact absurd (strEq_of_not_lt hab h) hne

theorem strLT_of_le_of_lt {a b c : String} (h1 : StrLE a b) (h2 : StrLT b c) : StrLT a c := by
  rw [strLE_iff_not_lt] at h1
  by_cases hab : StrLT a b
  · exact strLt_trans hab h2
  · exact strEq_of_not_lt hab h1 ▸ h2

theorem strLT_of_lt_of_le {a b c : String} (h1 : StrLT a b) (h2 : StrLE b c) : StrLT a c := by
  rw [strLE_iff_not_lt] at h2
  by_cases hbc : StrLT b c
  · exact strLt_trans h1 hbc
  · exact strEq_of_not_lt hbc h2 ▸ h1

theorem strLE_of_lt {a b : String} (h : StrLT a b) : StrLE a b := by
  rw [strLE_iff_not_lt]
  intro hba
  exact strLt_irrefl a (strLt_trans h hba)

instance : IsTotal String StrLE where
  total a b := by
    by_cases h : StrLT b a
    · exact Or.inr (strLE_of_lt h)
    · exact Or.inl (strLE_iff_not_lt.mpr h)

instance : IsTrans String StrLE where
  trans a b c h1 h2 := by
    rw [strLE_iff_not_lt] at h1 h2 ⊢
    intro hca
    by_cases hbc : StrLT b c
    · exact h1 (strLt_trans hbc hca)
    · have hbceq : b = c := strEq_of_not_lt hbc h2
      subst hbceq
      exact h1 hca

instance : IsAntisymm String StrLE where
  antisymm a b h1 h2 := by
    rw [strLE_iff_not_lt] at h1 h2
    exact strEq_of_not_lt h2 h1

instance : IsRefl String StrLE where
  refl a := strLE_iff_not_lt.mpr (strLt_irrefl a)

theorem strLE_refl (a : String) : StrLE a a := strLE_iff_not_lt.mpr (strLt_irrefl a)

/-! ### Correctness of the binary search used by `Scopes.Has` -/

theorem sorted_getD_le {a : Scopes} (hs : a.Sorted StrLE) {i j : Nat}
    (hij : i ≤ j) (hj : j < a.length) : StrLE (a.getD i "") (a.getD j "") := by
  rcases eq_or_lt_of_le hij with rfl | hlt
  · exact strLE_refl _
  · rw [List.getD_eq_getElem a "" (lt_of_le_of_lt hij hj), List.getD_eq_getElem a "" hj]
    exact List.Sorted.rel_get_of_lt hs (by simpa using hlt)

theorem binarySearchLoop_step_lt {a : Scopes} {x : String} {i j : Nat} (hlt : i < j)
    (hcmp : goLt (a.getD ((i + j) / 2) "") x = true) :
    binarySearchLoop a x i j = binarySearchLoop a x ((i + j) / 2 + 1) j := by
  rw [binarySearchLoop, if_pos hlt]
  show (if goLt (List.getD a ((i + j) / 2) "") x = true then
      binarySearchLoop a x ((i + j) / 2 + 1) j else binarySearchLoop a x i ((i + j) / 2)) =
    binarySearchLoop a x ((i + j) / 2 + 1) j
  rw [if_pos hcmp]

theorem binarySearchLoop_step_ge {a : Scopes} {x : String} {i j : Nat} (hlt : i < j)
    (hcmp : goLt (a.getD ((i + j) / 2) "") x = false) :
    binarySearchLoop a x i j = binarySearchLoop a x i ((i + j) / 2) := by
  rw [binarySearchLoop, if_pos hlt]
  show (if goLt (List.getD a ((i + j) / 2) "") x = true then
      binarySearchLoop a x ((i + j) / 2 + 1) j else binarySearchLoop a x i ((i + j) / 2)) =
    binarySearchLoop a x i ((i + j) / 2)
  rw [if_neg (Bool.eq_false_iff.mp hcmp)]

theorem binarySearchLoop_base {a : Scopes} {x : String} {i j : Nat} (hge : ¬i < j) :
    binarySearchLoop a x i j = i := by
  rw [binarySearchLoop, if_neg hge]

theorem binarySearchLoop_spec (a : Scopes) (x : String) (hs : a.Sorted StrLE) :
    ∀ fuel i j, j - i ≤ fuel → i ≤ j → j ≤ a.length →
      (∀ k, k < i → StrLT (a.getD k "") x) →
      (∀ k, j ≤ k → k < a.length → ¬StrLT (a.getD k "") x) →
      i ≤ binarySearchLoop a x i j ∧ binarySearchLoop a x i j ≤ j ∧
      (∀ k, k < binarySearchLoop a x i j → StrLT (a.getD k "") x) ∧
      (∀ k, binarySearchLoop a x i j ≤ k → k < a.length → ¬StrLT (a.getD k "") x) := by
  intro fuel
  induction fuel with
  | zero =>
    intro i j hfuel hij hj hlow hhigh
    have hji : ¬i < j := by omega
    rw [binarySearchLoop_base hji]
    have hij' : i = j := by omega
    exact ⟨le_refl i, le_of_eq hij', hlow, fun k hk => hhigh k (hij' ▸ hk)⟩
  | succ fuel ih =>
    intro i j hfuel hij hj hlow hhigh
    by_cases hlt : i < j
    · have hm1 : i ≤ (i + j) / 2 := by
        rw [Nat.le_div_iff_mul_le (by norm_num)]
        omega
      have hm2 : (i + j) / 2 < j := by
        rw [Nat.div_lt_iff_lt_mul (by norm_num)]
        omega
      have hmlen : (i + j) / 2 < a.length := lt_of_lt_of_le hm2 hj
      cases hcmp : goLt (a.getD ((i + j) / 2) "") x with
      | true =>
        rw [binarySearchLoop_step_lt hlt hcmp]
        have hlow' : ∀ k, k < (i + j) / 2 + 1 → StrLT (a.getD k "") x := by
          intro k hk
          have hkm : k ≤ (i + j) / 2 := by omega
          exact strLT_of_le_of_lt (sorted_getD_le hs hkm hmlen) hcmp
        have hres := ih ((i + j) / 2 + 1) j (by omega) (by omega) hj hlow' hhigh
        exact ⟨le_trans (by omega) hres.1, hres.2.1, hres.2.2.1, hres.2.2.2⟩
      | false =>
        rw [binarySearchLoop_step_ge hlt hcmp]
        have hhigh' : ∀ k, (i + j) / 2 ≤ k → k < a.length → ¬StrLT (a.getD k "") x := by
          intro k hmk hk hcon
          have hmx : StrLT (a.getD ((i + j) / 2) "") x :=
            strLT_of_le_of_lt (sorted_getD_le hs hmk hk) hcon
          simp only [StrLT] at hmx
          rw [hmx] at hcmp
          simp at hcmp
        have hres := ih i ((i + j) / 2) (by omega) hm1 (le_of_lt hmlen) hlow hhigh'
        exact ⟨hres.1, le_trans hres.2.1 (le_of_lt hm2), hres.2.2.1, hres.2.2.2⟩
    · rw [binarySearchLoop_base hlt]
      have hij' : i = j := by omega
      exact ⟨le_refl i, le_of_eq hij', hlow, fun k hk => hhigh k (hij' ▸ hk)⟩

theorem binarySearch_found_iff (a : Scopes) (x : String) (hs : a.Sorted StrLE) :
    (binarySearch a x).2 = true ↔ x ∈ a := by
  have hspec := binarySearchLoop_spec a x hs a.length 0 a.length (by omega) (by omega)
    (le_refl _) (by omega) (fun k hk hk2 => by omega)
  set r := binarySearchLoop a x 0 a.length with hr
  unfold binarySearch
  rw [← hr]
  constructor
  · intro hfound
    rw [Bool.and_eq_true, decide_eq_true_iff, beq_iff_eq] at hfound
    rw [← hfound.2, List.getD_eq_getElem a "" hfound.1]
    exact List.getElem_mem hfound.1
  · intro hmem
    obtain ⟨k, hk, hkx⟩ := List.mem_iff_getElem.mp hmem
    have hkr : r ≤ k := by
      by_contra hlt
      have := hspec.2.2.1 k (by omega)
      rw [List.getD_eq_getElem a "" hk, hkx] at this
      exact strLt_irrefl x this
    have hrlen : r < a.length := lt_of_le_of_lt hkr hk
    have hnotlt : ¬StrLT (a.getD r "") x := hspec.2.2.2 r (le_refl r) hrlen
    have hle : StrLE (a.getD r "") (a.getD k "") := sorted_getD_le hs hkr hk
    rw [List.getD_eq_getElem a "" hk, hkx] at hle
    have hnotlt2 : ¬StrLT x (a.getD r "") := strLE_iff_not_lt.mp hle
    have heq : a.getD r "" = x := strEq_of_not_lt hnotlt hnotlt2
    rw [Bool.and_eq_true, decide_eq_true_iff, beq_iff_eq]
    exact ⟨hrlen, heq⟩

theorem has_iff_mem_of_sorted {s : Scopes} (hs : s.Sorted StrLE)
    (hna : Scopes.Any s = false) (x : String) :
    Scopes.Has s x = true ↔ x ∈ s := by
  unfold Scopes.Has
  rw [hna]
  simp only [Bool.false_eq_true, if_false]
  exact binarySearch_found_iff s x hs

/-! ### Behaviour of the `Scopes.Compact` loop -/

theorem compactLoop_succ (i : Nat) (a : Scopes) (n : Nat) :
    compactLoop (i + 1) a n =
      (if a.getD i "" = "*" then Sum.inl ([a.getD i ""], a)
       else if a.getD i "" = "" then compactLoop i (removeAt a n i) (n - 1)
       else compactLoop i a n) := rfl

theorem removeAt_length {a : Scopes} {n i : Nat} (hin : i < n) (hna : n ≤ a.length) :
    (removeAt a n i).length = a.length := by
  unfold removeAt
  simp only [List.length_append, List.length_take, List.length_drop]
  omega

theorem removeAt_take {a : Scopes} {n i : Nat} (hia : i ≤ a.length) :
    (removeAt a n i).take i = a.take i := by
  unfold removeAt
  rw [List.append_assoc, List.take_left' (by rw [List.length_take]; omega)]

theorem removeAt_take_drop {a : Scopes} {n i : Nat} (hin : i < n) (hna : n ≤ a.length) :
    ((removeAt a n i).take (n - 1)).drop i = (a.drop (i + 1)).take (n - 1 - i) := by
  unfold removeAt
  rw [List.take_left'
      (by simp only [List.length_append, List.length_take, List.length_drop]; omega),
    List.drop_left' (by rw [List.length_take]; omega)]

theorem compactLoop_inl_eq_star :
    ∀ (i : Nat) (a : Scopes) (n : Nat) (p : Scopes × Scopes),
      compactLoop i a n = Sum.inl p → p.1 = ["*"] := by
  intro i
  induction i with
  | zero =>
    intro a n p h
    simp [compactLoop] at h
  | succ i ih =>
    intro a n p h
    rw [compactLoop_succ] at h
    split_ifs at h with h1 h2
    · cases h
      show [a.getD i ""] = ["*"]
      rw [h1]
    · exact ih _ _ _ h
    · exact ih _ _ _ h

theorem compactLoop_inl_of_star :
    ∀ (i : Nat) (a : Scopes) (n : Nat), i ≤ n → n ≤ a.length → "*" ∈ a.take i →
      ∃ p, compactLoop i a n = Sum.inl p := by
  intro i
  induction i with
  | zero =>
    intro a n _ _ hmem
    simp at hmem
  | succ i ih =>
    intro a n hin hna hmem
    have hilen : i < a.length := by omega
    have htake : a.take (i + 1) = a.take i ++ [a[i]] := by
      rw [List.take_succ, List.getElem?_eq_getElem hilen]
      rfl
    rw [compactLoop_succ]
    by_cases h1 : a.getD i "" = "*"
    · rw [if_pos h1]
      exact ⟨_, rfl⟩
    · rw [if_neg h1]
      have hgetD : a.getD i "" = a[i] := List.getD_eq_getElem a "" hilen
      have hmem' : "*" ∈ a.take i := by
        rw [htake] at hmem
        rcases List.mem_append.mp hmem with hm | hm
        · exact hm
        · simp at hm
          rw [hgetD] at h1
          exact absurd hm.symm h1
      by_cases h2 : a.getD i "" = ""
      · rw [if_pos h2]
        exact ih (removeAt a n i) (n - 1) (by omega)
          (by rw [removeAt_length (by omega) hna]; omega)
          (by rw [removeAt_take (le_of_lt hilen)]; exact hmem')
      · rw [if_neg h2]
        exact ih a n (by omega) hna hmem'

theorem compactLoop_inr_spec :
    ∀ (i : Nat) (a : Scopes) (n : Nat), i ≤ n → n ≤ a.length → "*" ∉ a.take i →
      ∃ a2 n2, compactLoop i a n = Sum.inr (a2, n2) ∧
        a2.take n2 = (a.take i).filter (fun z => z ≠ "") ++ (a.take n).drop i := by
  intro i
  induction i with
  | zero =>
    intro a n _ _ _
    exact ⟨a, n, rfl, by simp⟩
  | succ i ih =>
    intro a n hin hna hstar
    have hilen : i < a.length := by omega
    have hgetD : a.getD i "" = a[i] := List.getD_eq_getElem a "" hilen
    have htake : a.take (i + 1) = a.take i ++ [a[i]] := by
      rw [List.take_succ, List.getElem?_eq_getElem hilen]
      rfl
    have hstar_i : "*" ∉ a.take i := fun hm =>
      hstar (by rw [htake]; exact List.mem_append_left _ hm)
    have hstar_x : a[i] ≠ "*" := fun he =>
      hstar (by rw [htake, he]; exact List.mem_append_right _ (by simp))
    have htaken : (a.take n).length = n := by rw [List.length_take]; omega
    have hitaken : i < (a.take n).length := by omega
    have hdropn : (a.take n).drop i = a[i] :: (a.take n).drop (i + 1) := by
      rw [List.drop_eq_getElem_cons hitaken]
      congr 1
      simp
    have hdropn1 : (a.take n).drop (i + 1) = (a.drop (i + 1)).take (n - 1 - i) := by
      rw [List.drop_take]
      congr 1
      omega
    rw [compactLoop_succ, if_neg (by rw [hgetD]; exact hstar_x)]
    by_cases hempty : a[i] = ""
    · rw [if_pos (by rw [hgetD]; exact hempty)]
      obtain ⟨a2, n2, heq, hval⟩ := ih (removeAt a n i) (n - 1) (by omega)
        (by rw [removeAt_length (by omega) hna]; omega)
        (by rw [removeAt_take (le_of_lt hilen)]; exact hstar_i)
      refine ⟨a2, n2, heq, ?_⟩
      rw [hval, removeAt_take (le_of_lt hilen), removeAt_take_drop (by omega) hna]
      rw [htake, List.filter_append, hdropn1]
      simp [hempty]
    · rw [if_neg (by rw [hgetD]; exact hempty)]
      obtain ⟨a2, n2, heq, hval⟩ := ih a n (by omega) hna hstar_i
      refine ⟨a2, n2, heq, ?_⟩
      rw [hval, htake, List.filter_append, hdropn, hdropn1]
      simp [hempty]

theorem compactLoop_clean :
    ∀ (i : Nat) (a : Scopes) (n : Nat),
      (∀ k, k < i → a.getD k "" ≠ "*" ∧ a.getD k "" ≠ "") →
      compactLoop i a n = Sum.inr (a, n) := by
  intro i
  induction i with
  | zero => intro a n _; rfl
  | succ i ih =>
    intro a n hclean
    rw [compactLoop_succ, if_neg (hclean i (by omega)).1, if_neg (hclean i (by omega)).2]
    exact ih a n (fun k hk => hclean k (by omega))

/-! ### Behaviour of the sort-and-dedup phase -/

theorem strNe_of_lt {a b : String} (h : StrLT a b) : a ≠ b :=
  fun he => strLt_irrefl b (he ▸ h)

theorem compactAdjAux_sublist : ∀ (x : String) (l : Scopes), (compactAdjAux x l).Sublist l := by
  intro x l
  induction l generalizing x with
  | nil => exact List.Sublist.refl []
  | cons y rest ih =>
    unfold compactAdjAux
    by_cases hxy : x = y
    · rw [if_pos hxy]
      exact (ih x).trans (List.sublist_cons_self y rest)
    · rw [if_neg hxy]
      exact (ih y).cons₂ y

theorem compactAdj_sublist (l : Scopes) : (compactAdj l).Sublist l := by
  cases l with
  | nil => exact List.Sublist.refl []
  | cons x rest => exact (compactAdjAux_sublist x rest).cons₂ x

theorem compactAdjAux_mem :
    ∀ (x : String) (l : Scopes) (z : String), z ∈ l → z = x ∨ z ∈ compactAdjAux x l := by
  intro x l
  induction l generalizing x with
  | nil => intro z hz; simp at hz
  | cons y rest ih =>
    intro z hz
    unfold compactAdjAux
    by_cases hxy : x = y
    · rw [if_pos hxy]
      rcases List.mem_cons.mp hz with hzy | hzr
      · exact Or.inl (hzy.trans hxy.symm)
      · exact ih x z hzr
    · rw [if_neg hxy]
      rcases List.mem_cons.mp hz with hzy | hzr
      · exact Or.inr (by rw [hzy]; exact List.mem_cons_self y _)
      · rcases ih y z hzr with hzy | hm
        · exact Or.inr (by rw [hzy]; exact List.mem_cons_self y _)
        · exact Or.inr (List.mem_cons_of_mem y hm)

theorem compactAdj_mem {l : Scopes} {z : String} (hz : z ∈ l) : z ∈ compactAdj l := by
  cases l with
  | nil => simp at hz
  | cons x rest =>
    unfold compactAdj
    rcases List.mem_cons.mp hz with hzx | hzr
    · rw [hzx]; exact List.mem_cons_self x _
    · rcases compactAdjAux_mem x rest z hzr with hzx | hm
      · rw [hzx]; exact List.mem_cons_self x _
      · exact List.mem_cons_of_mem x hm

theorem compactAdjAux_sorted :
    ∀ (l : Scopes) (x : String), (x :: l).Sorted StrLE →
      (x :: compactAdjAux x l).Sorted StrLT := by
  intro l
  induction l with
  | nil => intro x _; simp [compactAdjAux]
  | cons y rest ih =>
    intro x hs
    rw [List.sorted_cons] at hs
    obtain ⟨hx, hyrest⟩ := hs
    unfold compactAdjAux
    by_cases hxy : x = y
    · rw [if_pos hxy]
      apply ih x
      rw [List.sorted_cons]
      rw [List.sorted_cons] at hyrest
      exact ⟨fun b hb => hxy ▸ hyrest.1 b hb, hyrest.2⟩
    · rw [if_neg hxy]
      have hxylt : StrLT x y := strLT_of_le_ne (hx y (List.mem_cons_self y rest)) hxy
      have htail := ih y hyrest
      rw [List.sorted_cons]
      refine ⟨?_, htail⟩
      intro b hb
      rcases List.mem_cons.mp hb with hby | hbm
      · rw [hby]; exact hxylt
      · have hbr : b ∈ rest := (compactAdjAux_sublist y rest).subset hbm
        rw [List.sorted_cons] at hyrest
        exact strLT_of_lt_of_le hxylt (hyrest.1 b hbr)

theorem compactAdj_sorted {l : Scopes} (h : l.Sorted StrLE) :
    (compactAdj l).Sorted StrLT := by
  cases l with
  | nil => simp [compactAdj]
  | cons x rest => exact compactAdjAux_sorted rest x h

theorem compactAdjAux_eq :
    ∀ (l : Scopes) (x : String), (x :: l).Sorted StrLT → compactAdjAux x l = l := by
  intro l
  induction l with
  | nil => intro x _; rfl
  | cons y rest ih =>
    intro x hs
    rw [List.sorted_cons] at hs
    unfold compactAdjAux
    rw [if_neg (strNe_of_lt (hs.1 y (List.mem_cons_self y rest)))]
    rw [ih y hs.2]

theorem compactAdj_eq {l : Scopes} (h : l.Sorted StrLT) : compactAdj l = l := by
  cases l with
  | nil => rfl
  | cons x rest =>
    show x :: compactAdjAux x rest = x :: rest
    rw [compactAdjAux_eq rest x h]

/-! ### Characterization of `Scopes.Compact` -/

theorem compact_star {s : Scopes} (h : "*" ∈ s) : Scopes.Compact s = ["*"] := by
  obtain ⟨⟨res, a2⟩, hp⟩ := compactLoop_inl_of_star s.length s s.length
    (le_refl _) (le_refl _) (by rw [List.take_length]; exact h)
  have h1 := compactLoop_inl_eq_star _ _ _ _ hp
  unfold Scopes.Compact compactGo
  rw [hp]
  exact h1

theorem compact_no_star {s : Scopes} (h : "*" ∉ s) :
    Scopes.Compact s = compactAdj (sortStrings (s.filter (fun z => z ≠ ""))) := by
  obtain ⟨a2, n2, heq, hval⟩ := compactLoop_inr_spec s.length s s.length
    (le_refl _) (le_refl _) (by rw [List.take_length]; exact h)
  rw [List.take_length, List.drop_length, List.append_nil] at hval
  unfold Scopes.Compact compactGo
  rw [heq]
  show compactAdj (sortStrings (a2.take n2)) = _
  rw [hval]

theorem compact_sorted_lt {s : Scopes} (h : "*" ∉ s) :
    (Scopes.Compact s).Sorted StrLT := by
  rw [compact_no_star h]
  exact compactAdj_sorted (List.sorted_insertionSort StrLE _)

theorem compact_mem_iff {s : Scopes} (h : "*" ∉ s) (z : String) :
    z ∈ Scopes.Compact s ↔ z ∈ s ∧ z ≠ "" := by
  rw [compact_no_star h]
  constructor
  · intro hz
    have hz2 : z ∈ sortStrings (s.filter (fun z => z ≠ "")) :=
      (compactAdj_sublist _).subset hz
    have hz3 : z ∈ s.filter (fun z => z ≠ "") :=
      (List.perm_insertionSort StrLE _).subset hz2
    rw [List.mem_filter, decide_eq_true_iff] at hz3
    exact hz3
  · intro hz
    apply compactAdj_mem
    apply (List.perm_insertionSort StrLE _).symm.subset
    rw [List.mem_filter, decide_eq_true_iff]
    exact hz

theorem compact_clean_id {s : Scopes} (hstar : "*" ∉ s) (hempty : "" ∉ s)
    (hsorted : s.Sorted StrLT) : compactGo s = (s, s) := by
  have hclean : ∀ k, k < s.length → s.getD k "" ≠ "*" ∧ s.getD k "" ≠ "" := by
    intro k hk
    rw [List.getD_eq_getElem s "" hk]
    exact ⟨fun he => hstar (he ▸ List.getElem_mem hk),
      fun he => hempty (he ▸ List.getElem_mem hk)⟩
  unfold compactGo
  rw [compactLoop_clean s.length s s.length hclean]
  have hres : compactAdj (sortStrings s) = s := by
    unfold sortStrings
    rw [List.Sorted.insertionSort_eq (hsorted.imp (fun h => strLE_of_lt h))]
    exact compactAdj_eq hsorted
  simp [hres]

/-! ### The directory loader's collection loop -/

theorem insertEnv_of_not_mem {env : List (String × Bytes)} {k : String} {v : Bytes}
    (h : env.any (fun kv => kv.1 == k) = false) : insertEnv env k v = env ++ [(k, v)] := by
  unfold insertEnv
  rw [h]
  simp

theorem loadDirLoop_ok (readFile : String → Except String Bytes)
    (namer : Option (String → String → String)) (ext : String) (content : String → Bytes) :
    ∀ (scopes : List String) (env : List (String × Bytes)),
      (∀ sc ∈ scopes, readFile (scopeFileName namer ext sc) = .ok (content sc)) →
      (∀ sc ∈ scopes, ∀ kv ∈ env, kv.1 ≠ sc) →
      scopes.Nodup →
      loadDirLoop readFile namer ext scopes env =
        .ok (env ++ scopes.map (fun sc => (sc, content sc))) := by
  intro scopes
  induction scopes with
  | nil =>
    intro env _ _ _
    simp [loadDirLoop]
  | cons sc rest ih =>
    intro env hok hdisj hnd
    unfold loadDirLoop
    rw [hok sc (List.mem_cons_self sc rest)]
    have hany : env.any (fun kv => kv.1 == sc) = false := by
      rw [List.any_eq_false]
      intro kv hkv
      simp [hdisj sc (List.mem_cons_self sc rest) kv hkv]
    show loadDirLoop readFile namer ext rest (insertEnv env sc (content sc)) = _
    rw [insertEnv_of_not_mem hany]
    rw [ih (env ++ [(sc, content sc)])
      (fun s2 hs2 => hok s2 (List.mem_cons_of_mem sc hs2))
      (by
        intro s2 hs2 kv hkv
        rcases List.mem_append.mp hkv with hkv | hkv
        · exact hdisj s2 (List.mem_cons_of_mem sc hs2) kv hkv
        · have hkveq : kv = (sc, content sc) := by simpa using hkv
          rw [hkveq]
          show sc ≠ s2
          intro hcon
          subst hcon
          exact (List.nodup_cons.mp hnd).1 hs2)
      (List.nodup_cons.mp hnd).2]
    rw [List.append_assoc]
    rfl

theorem loadDirLoop_err (readFile : String → Except String Bytes)
    (namer : Option (String → String → String)) (ext : String) :
    ∀ (pre : List String) (sc : String) (post : List String) (e : String)
      (env : List (String × Bytes)),
      (∀ s2 ∈ pre, ∃ c, readFile (scopeFileName namer ext s2) = .ok c) →
      readFile (scopeFileName namer ext sc) = .error e →
      loadDirLoop readFile namer ext (pre ++ sc :: post) env = .error e := by
  intro pre
  induction pre with
  | nil =>
    intro sc post e env _ herr
    show loadDirLoop readFile namer ext (sc :: post) env = .error e
    unfold loadDirLoop
    rw [herr]
  | cons p rest ih =>
    intro sc post e env hpre herr
    obtain ⟨c, hc⟩ := hpre p (List.mem_cons_self p rest)
    show loadDirLoop readFile namer ext (p :: (rest ++ sc :: post)) env = .error e
    unfold loadDirLoop
    rw [hc]
    show loadDirLoop readFile namer ext (rest ++ sc :: post) (insertEnv env p c) = .error e
    exact ih sc post e _ (fun s2 hs2 => hpre s2 (List.mem_cons_of_mem p hs2)) herr

theorem lookupEnv_map (content : String → Bytes) :
    ∀ (scopes : List String) (k : String),
      lookupEnv (scopes.map (fun sc => (sc, content sc))) k =
        if k ∈ scopes then some (content k) else none := by
  intro scopes
  induction scopes with
  | nil =>
    intro k
    simp [lookupEnv]
  | cons sc rest ih =>
    intro k
    by_cases hk : sc = k
    · subst hk
      unfold lookupEnv
      rw [List.map_cons, List.find?_cons_of_pos _ (by simp)]
      simp
    · unfold lookupEnv at ih ⊢
      rw [List.map_cons, List.find?_cons_of_neg _ (by simp [hk])]
      rw [ih k]
      by_cases hkr : k ∈ rest
      · rw [if_pos hkr, if_pos (List.mem_cons_of_mem sc hkr)]
      · rw [if_neg hkr, if_neg (by
          intro hm
          rcases List.mem_cons.mp hm with hm | hm
          · exact hk hm.symm
          · exact hkr hm)]

/-! ### Invariant of the task/handle protocol -/

/-- Safety invariant: `close(h.done)` only happens after the task function
has returned, and a returned `Join` saw one of its two select arms ready. -/
def TaskInv (s : TaskState) : Prop :=
  (s.doneClosed = true → s.funcReturned = true) ∧
  (s.joinReturned = true → s.doneClosed = true ∨ s.joinCtxDone = true)

theorem taskInv_init : TaskInv initTask := by
  constructor <;> intro h <;> simp [initTask] at h

theorem taskInv_step {s t : TaskState} (hs : TaskInv s) (hst : taskStepRel s t) :
    TaskInv t := by
  obtain ⟨l, hl⟩ := hst
  cases l with
  | funcReturn =>
    simp only [taskStep] at hl
    split_ifs at hl
    cases hl
    exact ⟨fun _ => rfl, hs.2⟩
  | closeDone =>
    simp only [taskStep] at hl
    split_ifs at hl with hcond
    cases hl
    rw [Bool.and_eq_true] at hcond
    exact ⟨fun _ => hcond.1, fun _ => Or.inl rfl⟩
  | cancelCall =>
    simp only [taskStep] at hl
    cases hl
    exact ⟨hs.1, hs.2⟩
  | joinCtxExpire =>
    simp only [taskStep] at hl
    cases hl
    exact ⟨hs.1, fun _ => Or.inr rfl⟩
  | joinReturn =>
    simp only [taskStep] at hl
    split_ifs at hl with hcond
    cases hl
    rw [Bool.and_eq_true, Bool.or_eq_true] at hcond
    exact ⟨hs.1, fun _ => hcond.2⟩

theorem taskInv_reachable {s : TaskState} (h : TaskReachable s) : TaskInv s := by
  unfold TaskReachable at h
  induction h with
  | refl => exact taskInv_init
  | tail _ hbc ih => exact taskInv_step ih hbc

/-! ### Claim theorems -/

/-- C1: HTTP loader checksum contract.  For every stored checksum and every
fetched response: an unchanged checksum yields `(false, nil)` with zero
decode calls and an untouched state; a changed checksum with a decodable
body yields `(true, nil)`, the new hub installed and the checksum updated;
a changed checksum with an undecodable body yields the decode error with
both the snapshot and the checksum left at their prior values. -/
theorem loadHTTP_ok_fetch {H : Type} {contentType : String}
    {newParse : Bytes → Except String H} {cs : String} {data : Bytes}
    {st : ConfigState H} {p : String × Codec}
    (hct : ContentType.Parse contentType = .ok p) :
    Config.loadHTTP contentType newParse (.ok (cs, data)) st =
      (if cs = st.checksum then (st, false, none, 0)
       else match Config.parse newParse st data with
         | (st2, none) => ({ st2 with checksum := cs }, true, none, 1)
         | (st2, some e) => (st2, false, some e, 1)) := by
  unfold Config.loadHTTP
  rw [hct]

theorem C1_loadHTTP_checksum_contract {H : Type} (contentType : String)
    (newParse : Bytes → Except String H) (fetchResult : Except String (String × Bytes))
    (st : ConfigState H) (p : String × Codec)
    (hct : ContentType.Parse contentType = .ok p) :
    (∀ cs data, fetchResult = .ok (cs, data) → cs = st.checksum →
      Config.loadHTTP contentType newParse fetchResult st = (st, false, none, 0)) ∧
    (∀ cs data hub, fetchResult = .ok (cs, data) → cs ≠ st.checksum →
      newParse data = .ok hub →
      Config.loadHTTP contentType newParse fetchResult st =
        ({ hub := some hub, checksum := cs }, true, none, 1)) ∧
    (∀ cs data e, fetchResult = .ok (cs, data) → cs ≠ st.checksum →
      newParse data = .error e →
      Config.loadHTTP contentType newParse fetchResult st = (st, false, some e, 1)) := by
  refine ⟨?_, ?_, ?_⟩
  · intro cs data hf hcs
    rw [hf, loadHTTP_ok_fetch hct, if_pos hcs]
  · intro cs data hub hf hcs hp
    have hparse : Config.parse newParse st data = ({ st with hub := some hub }, none) := by
      unfold Config.parse
      rw [hp]
    rw [hf, loadHTTP_ok_fetch hct, if_neg hcs, hparse]
  · intro cs data e hf hcs hp
    have hparse : Config.parse newParse st data = (st, some e) := by
      unfold Config.parse
      rw [hp]
    rw [hf, loadHTTP_ok_fetch hct, if_neg hcs, hparse]

/-- C1 witness at a concrete hub type, parser, state and the three kinds of
responses. -/
theorem C1_loadHTTP_checksum_contract_witness :
    Config.loadHTTP "" (fun d => if d = [1] then Except.ok 7 else Except.error "bad")
        (Except.ok ("abc", [2])) ⟨some 0, "abc"⟩ =
      (⟨some 0, "abc"⟩, false, none, 0) ∧
    Config.loadHTTP "" (fun d => if d = [1] then Except.ok 7 else Except.error "bad")
        (Except.ok ("new", [1])) ⟨some 0, "abc"⟩ =
      (⟨some 7, "new"⟩, true, none, 1) ∧
    Config.loadHTTP "" (fun d => if d = [1] then Except.ok 7 else Except.error "bad")
        (Except.ok ("new", [2])) ⟨some 0, "abc"⟩ =
      (⟨some 0, "abc"⟩, false, some "bad", 1) :=
  ⟨(C1_loadHTTP_checksum_contract "" (fun d => if d = [1] then Except.ok 7 else Except.error "bad")
      (Except.ok ("abc", [2])) ⟨some 0, "abc"⟩ ("json", Codec.json) rfl).1 "abc" [2] rfl rfl,
   (C1_loadHTTP_checksum_contract "" (fun d => if d = [1] then Except.ok 7 else Except.error "bad")
      (Except.ok ("new", [1])) ⟨some 0, "abc"⟩ ("json", Codec.json) rfl).2.1 "new" [1] 7 rfl
      (by decide) rfl,
   (C1_loadHTTP_checksum_contract "" (fun d => if d = [1] then Except.ok 7 else Except.error "bad")
      (Except.ok ("new", [2])) ⟨some 0, "abc"⟩ ("json", Codec.json) rfl).2.2 "new" [2] "bad" rfl
      (by decide) rfl⟩

/-- C2: snapshot store atomicity.  A successful parse installs exactly the
new hub and `Latest` returns it; a failed parse leaves the state untouched,
returns the error, and `Latest` answers exactly as before the call. -/
theorem C2_parse_atomicity {H : Type} (newParse : Bytes → Except String H)
    (st : ConfigState H) (data : Bytes) :
    (∀ hub, newParse data = .ok hub →
      Config.parse newParse st data = ({ st with hub := some hub }, none) ∧
      Config.Latest (Config.parse newParse st data).1 = some hub) ∧
    (∀ e, newParse data = .error e →
      Config.parse newParse st data = (st, some e) ∧
      Config.Latest (Config.parse newParse st data).1 = Config.Latest st) := by
  constructor
  · intro hub hp
    unfold Config.parse Config.Latest
    rw [hp]
    exact ⟨rfl, rfl⟩
  · intro e hp
    unfold Config.parse Config.Latest
    rw [hp]
    exact ⟨rfl, rfl⟩

/-- C2 witness at a concrete hub type, parser, state and the two kinds of
input. -/
theorem C2_parse_atomicity_witness :
    (Config.parse (fun d => if d = [1] then Except.ok 7 else Except.error "bad")
        ⟨some 3, "c"⟩ [1] = (⟨some 7, "c"⟩, none) ∧
      Config.Latest (Config.parse (fun d => if d = [1] then Except.ok 7 else Except.error "bad")
        ⟨some 3, "c"⟩ [1]).1 = some 7) ∧
    (Config.parse (fun d => if d = [1] then Except.ok 7 else Except.error "bad")
        ⟨some 3, "c"⟩ [2] = (⟨some 3, "c"⟩, some "bad") ∧
      Config.Latest (Config.parse (fun d => if d = [1] then Except.ok 7 else Except.error "bad")
        ⟨some 3, "c"⟩ [2]).1 = Config.Latest (⟨some 3, "c"⟩ : ConfigState Nat)) :=
  ⟨(C2_parse_atomicity (fun d => if d = [1] then Except.ok 7 else Except.error "bad")
      ⟨some 3, "c"⟩ [1]).1 7 rfl,
   (C2_parse_atomicity (fun d => if d = [1] then Except.ok 7 else Except.error "bad")
      ⟨some 3, "c"⟩ [2]).2 "bad" rfl⟩

/-- C4: with refresh interval 0, `Client.Start` itself returns nil, but the
periodic task it unconditionally spawns calls `time.NewTicker(0)` and
panics — periodic refresh is not disabled, the process faults. -/
theorem C4_zero_interval_start_panics :
    Client.Start 0 = (TaskOutcome.panicked, none) := rfl

/-- C6: content negotiation.  Empty input and `application/json` resolve
identically to JSON; parameters after `';'` are stripped before matching;
for every non-empty input exactly the three media types resolve and
everything else fails with "unsupported content type". -/
theorem C6_content_negotiation :
    ContentType.Parse "" = .ok ("json", Codec.json) ∧
    ContentType.Parse "application/json" = .ok ("json", Codec.json) ∧
    ContentType.Parse "application/json; charset=utf-8" =
      ContentType.Parse "application/json" ∧
    ContentType.Parse "application/yaml" = .ok ("yaml", Codec.yaml) ∧
    ContentType.Parse "application/toml" = .ok ("toml", Codec.toml) ∧
    ContentType.Parse "text/plain" = .error "unsupported content type" ∧
    (∀ c : String, c ≠ "" →
      ContentType.Parse c =
        (if trimAfterSemicolon c = "application/json" then .ok ("json", Codec.json)
         else if trimAfterSemicolon c = "application/yaml" then .ok ("yaml", Codec.yaml)
         else if trimAfterSemicolon c = "application/toml" then .ok ("toml", Codec.toml)
         else .error "unsupported content type")) := by
  refine ⟨rfl, rfl, rfl, rfl, rfl, rfl, ?_⟩
  intro c hc
  unfold ContentType.Parse
  rw [if_neg hc]

/-- C6 witness: the general non-empty case applied to a parameterized YAML
media type. -/
theorem C6_content_negotiation_witness :
    ContentType.Parse "application/yaml; charset=utf-8" =
      (if trimAfterSemicolon "application/yaml; charset=utf-8" = "application/json" then
        .ok ("json", Codec.json)
       else if trimAfterSemicolon "application/yaml; charset=utf-8" = "application/yaml" then
        .ok ("yaml", Codec.yaml)
       else if trimAfterSemicolon "application/yaml; charset=utf-8" = "application/toml" then
        .ok ("toml", Codec.toml)
       else .error "unsupported content type") :=
  C6_content_negotiation.2.2.2.2.2.2 "application/yaml; charset=utf-8" (by decide)

/-- C3: scope normalization and membership.  A list containing `"*"`
anywhere compacts to exactly `["*"]` (on which `Has` is always true); a
list without `"*"` compacts to a sorted, duplicate-free, empty-free
sequence on which `Has` answers membership exactly. -/
theorem C3_normalize_and_membership (s : Scopes) :
    ("*" ∈ s → Scopes.Compact s = ["*"] ∧
      ∀ x, Scopes.Has (Scopes.Compact s) x = true) ∧
    ("*" ∉ s →
      (Scopes.Compact s).Sorted StrLE ∧ (Scopes.Compact s).Nodup ∧
      "" ∉ Scopes.Compact s ∧
      ∀ x, Scopes.Has (Scopes.Compact s) x = true ↔ x ∈ Scopes.Compact s) := by
  constructor
  · intro h
    refine ⟨compact_star h, ?_⟩
    intro x
    rw [compact_star h]
    rfl
  · intro h
    have hsortedlt := compact_sorted_lt h
    have hsorted : (Scopes.Compact s).Sorted StrLE :=
      hsortedlt.imp (fun hh => strLE_of_lt hh)
    refine ⟨hsorted, hsortedlt.imp (fun hh => strNe_of_lt hh), ?_, ?_⟩
    · intro hmem
      exact ((compact_mem_iff h "").mp hmem).2 rfl
    · intro x
      have hna : Scopes.Any (Scopes.Compact s) = false := by
        cases hAny : Scopes.Any (Scopes.Compact s)
        · rfl
        · exfalso
          unfold Scopes.Any at hAny
          rw [Bool.and_eq_true, beq_iff_eq, beq_iff_eq] at hAny
          have h0 : 0 < (Scopes.Compact s).length := by omega
          have hmem : "*" ∈ Scopes.Compact s := by
            rw [← hAny.2, List.getD_eq_getElem _ "" h0]
            exact List.getElem_mem h0
          exact h ((compact_mem_iff h "*").mp hmem).1
      exact has_iff_mem_of_sorted hsorted hna x

/-- C3 witness: the wildcard case at `["b", "*", "a"]` and the plain case at
`["b", "a", "b", ""]`, with `Has` instantiated at `"a"`. -/
theorem C3_normalize_and_membership_witness :
    (Scopes.Compact ["b", "*", "a"] = ["*"] ∧
      Scopes.Has (Scopes.Compact ["b", "*", "a"]) "zz" = true) ∧
    ((Scopes.Compact ["b", "a", "b", ""]).Sorted StrLE ∧
      (Scopes.Compact ["b", "a", "b", ""]).Nodup ∧
      "" ∉ Scopes.Compact ["b", "a", "b", ""] ∧
      (Scopes.Has (Scopes.Compact ["b", "a", "b", ""]) "a" = true ↔
        "a" ∈ Scopes.Compact ["b", "a", "b", ""])) := by
  constructor
  · have h := (C3_normalize_and_membership ["b", "*", "a"]).1 (by decide)
    exact ⟨h.1, h.2 "zz"⟩
  · have h := (C3_normalize_and_membership ["b", "a", "b", ""]).2 (by decide)
    exact ⟨h.1, h.2.1, h.2.2.1, h.2.2.2 "a"⟩

/-- C7: the scope gate of `Load`.  A scope list that normalizes to the empty
list makes `Load` a `(false, nil)` no-op with the state untouched and no
loader consulted; a normalized list still containing `"*"` makes `Load`
return the unresolved-wildcard usage error, again before any loader runs. -/
theorem C7_load_scope_gate {H : Type} (env : LoadEnv H) (options : LoadOptions)
    (st : ConfigState H) :
    (Scopes.Compact options.scopes = [] →
      Config.Load env options st = (st, false, none)) ∧
    ("*" ∈ Scopes.Compact options.scopes →
      Config.Load env options st =
        (st, false, some "scope * should be resolved before loading")) := by
  constructor
  · intro h
    unfold Config.Load
    rw [h]
    rfl
  · intro h
    have h0 : ¬(Scopes.Compact options.scopes).length = 0 := by
      intro he
      rw [List.length_eq_zero] at he
      rw [he] at h
      simp at h
    have hc : (Scopes.Compact options.scopes).contains "*" = true :=
      List.elem_eq_true_of_mem h
    unfold Config.Load
    rw [if_neg h0, if_pos hc]

/-- A vacuous environment for instantiating `Config.Load` in witnesses: the
gate returns before any of these functions can be consulted. -/
def trivialLoadEnv : LoadEnv Nat where
  newParse := fun _ => Except.error "unused"
  envParse := fun _ => Except.error "unused"
  fetchFn := fun _ _ => Except.error "unused"
  httpFetch := fun _ => Except.error "unused"
  readFile := fun _ => Except.error "unused"

/-- C7 witness: the no-op case for scopes `[""]` (normalizing to `[]`) and the
usage-error case for scopes `["*", "a"]`. -/
theorem C7_load_scope_gate_witness :
    Config.Load trivialLoadEnv ⟨"dir", "", [""], false, none⟩ ⟨some 3, "c"⟩ =
      (⟨some 3, "c"⟩, false, none) ∧
    Config.Load trivialLoadEnv ⟨"dir", "", ["*", "a"], false, none⟩ ⟨some 3, "c"⟩ =
      (⟨some 3, "c"⟩, false, some "scope * should be resolved before loading") :=
  ⟨(C7_load_scope_gate trivialLoadEnv ⟨"dir", "", [""], false, none⟩ ⟨some 3, "c"⟩).1 (by decide),
   (C7_load_scope_gate trivialLoadEnv ⟨"dir", "", ["*", "a"], false, none⟩ ⟨some 3, "c"⟩).2
     (by decide)⟩

/-- C8 counterexample: `Compact` mutates the caller's list in place.  On
`["b", "a"]` the in-place sort leaves the caller's backing array holding
`["a", "b"]`, so the caller's scope list no longer contains its original
elements in their original order. -/
theorem C8_compact_mutates_caller :
    compactBacking ["b", "a"] = ["a", "b"] ∧ (["a", "b"] : Scopes) ≠ ["b", "a"] := by
  constructor
  · rfl
  · decide

/-- C8 amended: `Compact` works in place on the caller's storage; the
caller's list is guaranteed to keep its original contents only when it is
already normalized (strictly sorted, no empty strings, no wildcard), in
which case both the returned value and the caller's backing array equal the
input. -/
theorem C8_compact_in_place_frame {s : Scopes} (hstar : "*" ∉ s) (hempty : "" ∉ s)
    (hsorted : s.Sorted StrLT) :
    Scopes.Compact s = s ∧ compactBacking s = s := by
  have h := compact_clean_id hstar hempty hsorted
  unfold Scopes.Compact compactBacking
  rw [h]
  exact ⟨rfl, rfl⟩

/-- C8 amended witness at the already-normalized list `["a", "b"]`. -/
theorem C8_compact_in_place_frame_witness :
    Scopes.Compact ["a", "b"] = ["a", "b"] ∧ compactBacking ["a", "b"] = ["a", "b"] :=
  C8_compact_in_place_frame (by decide) (by decide) (by decide)

theorem loadDir_ok_ct {H : Type} {contentType : String}
    {envParse : List (String × Bytes) → Except String H}
    {readFile : String → Except String Bytes}
    {namer : Option (String → String → String)} {scopes : Scopes}
    {st : ConfigState H} {ext : String} {cd : Codec}
    (hct : ContentType.Parse contentType = .ok (ext, cd)) :
    Config.loadDir contentType envParse readFile namer scopes st =
      (match loadDirLoop readFile namer ext scopes [] with
       | .error e => (st, some e, none)
       | .ok env =>
         match envParse env with
         | .error e => (st, some e, some env)
         | .ok hub => ({ st with hub := some hub }, none, some env)) := by
  unfold Config.loadDir
  rw [hct]

theorem loadDir_ok_loop {H : Type} {contentType : String}
    {envParse : List (String × Bytes) → Except String H}
    {readFile : String → Except String Bytes}
    {namer : Option (String → String → String)} {scopes : Scopes}
    {st : ConfigState H} {ext : String} {cd : Codec} {env : List (String × Bytes)}
    (hct : ContentType.Parse contentType = .ok (ext, cd))
    (hloop : loadDirLoop readFile namer ext scopes [] = .ok env) :
    Config.loadDir contentType envParse readFile namer scopes st =
      (match envParse env with
       | .error e => (st, some e, some env)
       | .ok hub => ({ st with hub := some hub }, none, some env)) := by
  rw [loadDir_ok_ct hct, hloop]

/-- C5: the directory loader is all-or-nothing.  If every scope's file
reads successfully, decode is invoked with an envelope holding exactly one
key per scope mapped to that scope's bytes (and the overall result is
whatever decode makes of that full envelope); if some scope's file fails to
read — all scopes before it being readable — the load fails with exactly
that error and decode is never invoked. -/
theorem C5_loadDir_all_or_nothing {H : Type} (contentType : String)
    (envParse : List (String × Bytes) → Except String H)
    (readFile : String → Except String Bytes)
    (namer : Option (String → String → String)) (scopes : Scopes)
    (st : ConfigState H) (ext : String) (cd : Codec)
    (hct : ContentType.Parse contentType = .ok (ext, cd))
    (hnd : scopes.Nodup) :
    (∀ content : String → Bytes,
      (∀ sc ∈ scopes, readFile (scopeFileName namer ext sc) = .ok (content sc)) →
      ∃ env,
        (∀ k, lookupEnv env k = if k ∈ scopes then some (content k) else none) ∧
        (Config.loadDir contentType envParse readFile namer scopes st).2.2 = some env ∧
        (∀ hub, envParse env = .ok hub →
          Config.loadDir contentType envParse readFile namer scopes st =
            ({ st with hub := some hub }, none, some env)) ∧
        (∀ e, envParse env = .error e →
          Config.loadDir contentType envParse readFile namer scopes st =
            (st, some e, some env))) ∧
    (∀ (pre : List String) (sc : String) (post : List String) (e : String),
      scopes = pre ++ sc :: post →
      (∀ s2 ∈ pre, ∃ c, readFile (scopeFileName namer ext s2) = .ok c) →
      readFile (scopeFileName namer ext sc) = .error e →
      Config.loadDir contentType envParse readFile namer scopes st = (st, some e, none)) := by
  constructor
  · intro content hok
    have hloop : loadDirLoop readFile namer ext scopes [] =
        .ok (scopes.map (fun sc => (sc, content sc))) := by
      rw [loadDirLoop_ok readFile namer ext content scopes [] hok (by simp) hnd,
        List.nil_append]
    refine ⟨scopes.map (fun sc => (sc, content sc)), lookupEnv_map content scopes, ?_, ?_, ?_⟩
    · rw [loadDir_ok_loop hct hloop]
      cases envParse (scopes.map fun sc => (sc, content sc)) <;> rfl
    · intro hub hval
      rw [loadDir_ok_loop hct hloop, hval]
    · intro e hval
      rw [loadDir_ok_loop hct hloop, hval]
  · intro pre sc post e heq hpre herr
    rw [loadDir_ok_ct hct, heq,
      loadDirLoop_err readFile namer ext pre sc post e [] hpre herr]

/-- C5 witness: scopes `["a", "b"]` with both files readable, and scopes
`["a", "zz"]` with the second file missing, over the default namer and JSON
extension. -/
theorem C5_loadDir_all_or_nothing_witness :
    (∃ env,
      (∀ k, lookupEnv env k =
        if k ∈ (["a", "b"] : Scopes) then
          some (if k = "a" then [1] else [2]) else none) ∧
      (Config.loadDir ""
          (fun env2 => Except.ok env2.length)
          (fun name => if name = "a.json" then Except.ok [1]
            else if name = "b.json" then Except.ok [2]
            else Except.error ("missing " ++ name))
          none ["a", "b"] (⟨some 0, "c"⟩ : ConfigState Nat)).2.2 = some env ∧
      (∀ hub, (fun env2 => Except.ok (List.length env2) : List (String × Bytes) → Except String Nat) env = Except.ok hub →
        Config.loadDir ""
          (fun env2 => Except.ok env2.length)
          (fun name => if name = "a.json" then Except.ok [1]
            else if name = "b.json" then Except.ok [2]
            else Except.error ("missing " ++ name))
          none ["a", "b"] ⟨some 0, "c"⟩ =
          (⟨some hub, "c"⟩, none, some env)) ∧
      (∀ e, (fun env2 => Except.ok (List.length env2) : List (String × Bytes) → Except String Nat) env = Except.error e →
        Config.loadDir ""
          (fun env2 => Except.ok env2.length)
          (fun name => if name = "a.json" then Except.ok [1]
            else if name = "b.json" then Except.ok [2]
            else Except.error ("missing " ++ name))
          none ["a", "b"] ⟨some 0, "c"⟩ =
          (⟨some 0, "c"⟩, some e, some env))) ∧
    Config.loadDir ""
        (fun env2 => Except.ok env2.length)
        (fun name => if name = "a.json" then Except.ok [1]
          else if name = "b.json" then Except.ok [2]
          else Except.error ("missing " ++ name))
        none ["a", "zz"] (⟨some 0, "c"⟩ : ConfigState Nat) =
      (⟨some 0, "c"⟩, some "missing zz.json", none) := by
  constructor
  · have h := (C5_loadDir_all_or_nothing ""
      (fun env2 => Except.ok env2.length)
      (fun name => if name = "a.json" then Except.ok [1]
        else if name = "b.json" then Except.ok [2]
        else Except.error ("missing " ++ name))
      none ["a", "b"] ⟨some 0, "c"⟩ "json" Codec.json rfl (by decide)).1
      (fun k => if k = "a" then [1] else [2])
      (by
        intro sc hsc
        rcases List.mem_cons.mp hsc with rfl | hsc
        · rfl
        · rcases List.mem_cons.mp hsc with rfl | hsc
          · rfl
          · simp at hsc)
    exact h
  · exact (C5_loadDir_all_or_nothing ""
      (fun env2 => Except.ok env2.length)
      (fun name => if name = "a.json" then Except.ok [1]
        else if name = "b.json" then Except.ok [2]
        else Except.error ("missing " ++ name))
      none ["a", "zz"] ⟨some 0, "c"⟩ "json" Codec.json rfl (by decide)).2
      ["a"] "zz" [] "missing zz.json" rfl
      (by
        intro s2 hs2
        rcases List.mem_cons.mp hs2 with rfl | hs2
        · exact ⟨[1], rfl⟩
        · simp at hs2)
      rfl

/-- C9: task handle contract over the protocol's transition system.  In
every reachable state: a returned `Join` implies the function returned or
the Join caller's context expired; a `Join` return never changes the task's
cancellation flag; `Cancel` is always enabled, idempotent and non-blocking;
`Join` cannot return merely because `Cancel` was called (both select arms
still pending), and once the completion signal fired `Join` can return. -/
theorem C9_task_handle_contract (s : TaskState) (hreach : TaskReachable s) :
    (s.joinReturned = true → s.funcReturned = true ∨ s.joinCtxDone = true) ∧
    (∀ t, taskStep TaskLabel.joinReturn s = some t → t.ctxCanceled = s.ctxCanceled) ∧
    (∃ t, taskStep TaskLabel.cancelCall s = some t ∧ t.ctxCanceled = true ∧
      taskStep TaskLabel.cancelCall t = some t) ∧
    (s.doneClosed = false → s.joinCtxDone = false →
      taskStep TaskLabel.joinReturn s = none) ∧
    (s.doneClosed = true → s.joinReturned = false →
      (taskStep TaskLabel.joinReturn s).isSome = true) := by
  have hinv := taskInv_reachable hreach
  refine ⟨?_, ?_, ?_, ?_, ?_⟩
  · intro hj
    rcases hinv.2 hj with hd | hj2
    · exact Or.inl (hinv.1 hd)
    · exact Or.inr hj2
  · intro t ht
    simp only [taskStep] at ht
    split_ifs at ht
    cases ht
    rfl
  · exact ⟨{ s with ctxCanceled := true }, rfl, rfl, rfl⟩
  · intro hd hj
    simp only [taskStep]
    rw [hd, hj]
    simp
  · intro hd hj
    simp only [taskStep]
    rw [hd, hj]
    simp

/-- C9 witness: the state right after a `Cancel` that precedes both the
function's return and any `Join`. -/
theorem C9_task_handle_contract_witness :
    ((⟨false, true, false, false, false⟩ : TaskState).joinReturned = true →
      (⟨false, true, false, false, false⟩ : TaskState).funcReturned = true ∨
      (⟨false, true, false, false, false⟩ : TaskState).joinCtxDone = true) ∧
    (∀ t, taskStep TaskLabel.joinReturn ⟨false, true, false, false, false⟩ = some t →
      t.ctxCanceled = (⟨false, true, false, false, false⟩ : TaskState).ctxCanceled) ∧
    (∃ t, taskStep TaskLabel.cancelCall ⟨false, true, false, false, false⟩ = some t ∧
      t.ctxCanceled = true ∧ taskStep TaskLabel.cancelCall t = some t) ∧
    ((⟨false, true, false, false, false⟩ : TaskState).doneClosed = false →
      (⟨false, true, false, false, false⟩ : TaskState).joinCtxDone = false →
      taskStep TaskLabel.joinReturn ⟨false, true, false, false, false⟩ = none) ∧
    ((⟨false, true, false, false, false⟩ : TaskState).doneClosed = true →
      (⟨false, true, false, false, false⟩ : TaskState).joinReturned = false →
      (taskStep TaskLabel.joinReturn ⟨false, true, false, false, false⟩).isSome = true) :=
  C9_task_handle_contract ⟨false, true, false, false, false⟩
    (Relation.ReflTransGen.single ⟨TaskLabel.cancelCall, rfl⟩)

/-- C10: implicit first-load edge case of the HTTP loader.  With no stored
checksum and a response carrying no `X-Checksum` header, both checksums are
the empty string, so `loadHTTP` reports `(false, nil)` with zero decode
calls and never installs a snapshot: `Latest` still faults afterwards. -/
theorem C10_first_load_without_checksum_header {H : Type}
    (newParse : Bytes → Except String H) (r : HttpResponse) (st : ConfigState H)
    (contentType : String) (p : String × Codec)
    (hct : ContentType.Parse contentType = .ok p)
    (hhdr : headerGet r.headers HeaderChecksum = "")
    (hcs : st.checksum = "") (hhub : st.hub = none) :
    Config.loadHTTP contentType newParse (.ok (fetch r)) st = (st, false, none, 0) ∧
    Config.Latest (Config.loadHTTP contentType newParse (.ok (fetch r)) st).1 = none := by
  have hf : fetch r = ("", r.body) := by
    unfold fetch
    rw [hhdr]
  have h1 : Config.loadHTTP contentType newParse (.ok (fetch r)) st =
      (st, false, none, 0) := by
    rw [hf, loadHTTP_ok_fetch hct, if_pos hcs.symm]
  refine ⟨h1, ?_⟩
  rw [h1]
  exact hhub

/-- C10 witness: a fresh state and a response whose only header is a content
type, so the checksum header is absent. -/
theorem C10_first_load_without_checksum_header_witness :
    Config.loadHTTP "" (fun _ => Except.error "e" : Bytes → Except String Nat)
        (.ok (fetch ⟨[("Content-Type", "application/json")], [5]⟩)) ⟨none, ""⟩ =
      (⟨none, ""⟩, false, none, 0) ∧
    Config.Latest (Config.loadHTTP "" (fun _ => Except.error "e" : Bytes → Except String Nat)
        (.ok (fetch ⟨[("Content-Type", "application/json")], [5]⟩)) ⟨none, ""⟩).1 = none :=
  C10_first_load_without_checksum_header (fun _ => Except.error "e")
    ⟨[("Content-Type", "application/json")], [5]⟩ ⟨none, ""⟩ "" ("json", Codec.json)
    rfl rfl rfl rfl
